import Mathlib

/-!
Verification development for the AVL-tree lab (`avl_tree.hpp`).

The C++ template `avl_tree<Key, Info>` is embedded shallowly: a node
`{key, info, left, right, height}` becomes a constructor of an inductive
tree, the `int height` field becomes an `Int`, and each member function
becomes a Lean function translated clause by clause from the source.
Null-pointer dereferences in the C++ (e.g. `rotate_right` on a node with
no left child, which the guards in `rebalance` make unreachable) are
mapped to identity fallback branches, marked below.
-/

namespace AvlCpp

/-- A node of `avl_tree<Key, Info>`: `key`, `info`, owned `left` and
`right` subtrees and the cached `int height`.  The empty tree is the
null pointer. -/
inductive Tree (α β : Type) where
  | leaf : Tree α β
  | node (key : α) (info : β) (left right : Tree α β) (height : Int) : Tree α β
deriving DecidableEq

namespace Tree

variable {α β : Type}

/-- `height(node* n) { return n ? n->height : 0; }` — reads the cached field. -/
def height : Tree α β → Int
  | .leaf => 0
  | .node _ _ _ _ h => h

/-- `balance_factor(n) = height(n->left) - height(n->right)`.
The C++ dereferences `n`; it is only ever called on non-null nodes, the
`leaf` branch is an unreachable fallback. -/
def balance_factor : Tree α β → Int
  | .leaf => 0
  | .node _ _ l r _ => l.height - r.height

/-- `rotate_right(y)`: `x = y->left; T2 = x->right; x->right = y;
y->left = T2; update_height(y); update_height(x); return x;`.
The C++ dereferences `y->left`; `rebalance` only calls this when the
left child exists, so the fallback branch (identity) is unreachable. -/
def rotate_right : Tree α β → Tree α β
  | .node yk yi (.node xk xi a t2 _) r _ =>
    .node xk xi a (.node yk yi t2 r (1 + max t2.height r.height))
      (1 + max a.height (1 + max t2.height r.height))
  | t => t

/-- `rotate_left(x)`: mirror of `rotate_right`. -/
def rotate_left : Tree α β → Tree α β
  | .node xk xi l (.node yk yi t2 b _) _ =>
    .node yk yi (.node xk xi l t2 (1 + max l.height t2.height)) b
      (1 + max (1 + max l.height t2.height) b.height)
  | t => t

/-- `rebalance(n)`: `update_height(n)` (only `n`'s own cached height is
recomputed), then the four rotation cases on the balance factor, each
guard reading the children's cached heights.  `rebalance` is only called
on non-null nodes; the `leaf` branch is an unreachable fallback. -/
def rebalance : Tree α β → Tree α β
  | .leaf => .leaf
  | .node k i l r _ =>
    let balance : Int := l.height - r.height
    if 1 < balance ∧ 0 ≤ l.balance_factor then
      rotate_right (.node k i l r (1 + max l.height r.height))
    else if balance < -1 ∧ r.balance_factor ≤ 0 then
      rotate_left (.node k i l r (1 + max l.height r.height))
    else if 1 < balance ∧ l.balance_factor < 0 then
      rotate_right (.node k i l.rotate_left r (1 + max l.height r.height))
    else if balance < -1 ∧ 0 < r.balance_factor then
      rotate_left (.node k i l r.rotate_right (1 + max l.height r.height))
    else .node k i l r (1 + max l.height r.height)

/-- `min_node(n)`: `current = n; while (current->left) current = current->left;`.
The argument node `n` is passed decomposed as its key, info and left
subtree (its right subtree and height are never read). -/
def min_node : α → β → Tree α β → α × β
  | k, i, .leaf => (k, i)
  | _, _, .node lk li ll _ _ => min_node lk li ll

/-- `insert(node* n, key, info)` (the private recursive member). -/
def insert [LinearOrder α] : Tree α β → α → β → Tree α β
  | .leaf, k, i => .node k i .leaf .leaf 1
  | .node nk ni l r h, k, i =>
    if k < nk then rebalance (.node nk ni (l.insert k i) r h)
    else if nk < k then rebalance (.node nk ni l (r.insert k i) h)
    else .node nk i l r h

/-- `remove(node* n, key)` (the private recursive member).  In the
one-child case the C++ copies `*temp` into `n` and deletes `temp`,
which amounts to promoting the child, and then still runs `rebalance`
on it; in the two-child case the in-order successor's key/info replace
`n`'s and the successor is removed from the right subtree. -/
def remove [LinearOrder α] : Tree α β → α → Tree α β
  | .leaf, _ => .leaf
  | .node nk ni l r h, k =>
    if k < nk then rebalance (.node nk ni (l.remove k) r h)
    else if nk < k then rebalance (.node nk ni l (r.remove k) h)
    else
      match l, r with
      | .leaf, .leaf => .leaf
      | .leaf, .node rk ri rl rr rh => rebalance (.node rk ri rl rr rh)
      | .node lk li ll lr lh, .leaf => rebalance (.node lk li ll lr lh)
      | .node lk li ll lr lh, .node rk ri rl rr rh =>
        let s := min_node rk ri rl
        rebalance (.node s.1 s.2 (.node lk li ll lr lh)
          (remove (.node rk ri rl rr rh) s.1) h)

/-- `find(key)`: iterative descent returning the found node; modelled as
the found node's info (`none` for the null pointer). -/
def find [LinearOrder α] : Tree α β → α → Option β
  | .leaf, _ => none
  | .node nk ni l r _, k =>
    if k = nk then some ni
    else if k < nk then l.find k
    else r.find k

/-- `to_vector(node* n, vec)`: in-order traversal collecting `(key, info)`. -/
def to_vector : Tree α β → List (α × β)
  | .leaf => []
  | .node k i l r _ => l.to_vector ++ (k, i) :: r.to_vector

/-- `size()`: `to_vector` then the vector's length. -/
def size (t : Tree α β) : Nat := t.to_vector.length

/-- `empty()`: `root == nullptr`. -/
def empty : Tree α β → Bool
  | .leaf => true
  | _ => false

/-- `search(key, info&)`: on success writes the found info through the
output parameter and returns true; modelled as returning the flag
together with the final value of the output parameter. -/
def search [LinearOrder α] (t : Tree α β) (k : α) (info : β) : Bool × β :=
  match t.find k with
  | some i => (true, i)
  | none => (false, info)

/-- Writing a value through the `Info&` reference returned by the mutable
`operator[]` (i.e. through the pointer `find` returned): the info of the
node holding `k` is overwritten in place, nothing else changes. -/
def set_info [LinearOrder α] : Tree α β → α → β → Tree α β
  | .leaf, _, _ => .leaf
  | .node nk ni l r h, k, i =>
    if k = nk then .node nk i l r h
    else if k < nk then .node nk ni (l.set_info k i) r h
    else .node nk ni l (r.set_info k i) h

/-- Mutable `operator[](key)`: `find`; if absent, `root = insert(root, key, Info{})`
and `find` again; returns the reference (modelled as the tree after the
possible insertion together with the value currently behind the reference). -/
def bracket [LinearOrder α] [Inhabited β] (t : Tree α β) (k : α) : Tree α β × β :=
  match t.find k with
  | some i => (t, i)
  | none =>
    let t' := t.insert k default
    (t', (t'.find k).getD default)

/-- Const `operator[](key)`: returns the found info, or the value of the
function-local `static Info dummy;` (default-constructed, never written)
when the key is absent. -/
def bracketConst [LinearOrder α] [Inhabited β] (t : Tree α β) (k : α) : β :=
  (t.find k).getD default

/-- The root node's key, for stating the rotation test cases. -/
def rootKey : Tree α β → Option α
  | .leaf => none
  | .node k _ _ _ _ => some k

end Tree

section Invariants

variable {α β : Type}

/-- The key sequence of a list of entries. -/
def keys (L : List (α × β)) : List α := L.map Prod.fst

/-- BST invariant, phrased on the observable in-order sequence: the keys
produced by `to_vector` are strictly ascending. -/
def Ordered [LinearOrder α] (t : Tree α β) : Prop :=
  List.Pairwise (· < ·) (keys t.to_vector)

/-- Cached-height invariant: every node's stored `height` equals
`1 + max(height(left), height(right))`. -/
def HtOk : Tree α β → Prop
  | .leaf => True
  | .node _ _ l r h => h = 1 + max l.height r.height ∧ HtOk l ∧ HtOk r

/-- AVL balance invariant: at every node the children's heights differ
by at most one. -/
def Bal : Tree α β → Prop
  | .leaf => True
  | .node _ _ l r _ => (l.height - r.height ≤ 1 ∧ r.height - l.height ≤ 1) ∧ Bal l ∧ Bal r

instance HtOk.instDecidable : (t : Tree α β) → Decidable (HtOk t)
  | .leaf => .isTrue trivial
  | .node k i l r h =>
    have := HtOk.instDecidable l
    have := HtOk.instDecidable r
    decidable_of_iff (h = 1 + max l.height r.height ∧ HtOk l ∧ HtOk r) (by rw [HtOk])

instance Bal.instDecidable : (t : Tree α β) → Decidable (Bal t)
  | .leaf => .isTrue trivial
  | .node k i l r h =>
    have := Bal.instDecidable l
    have := Bal.instDecidable r
    decidable_of_iff ((l.height - r.height ≤ 1 ∧ r.height - l.height ≤ 1) ∧ Bal l ∧ Bal r)
      (by rw [Bal])

/-- All three invariants of §3 of the spec together. -/
def Inv [LinearOrder α] (t : Tree α β) : Prop := Ordered t ∧ HtOk t ∧ Bal t

instance [LinearOrder α] [DecidableEq β] : DecidablePred (Inv (α := α) (β := β)) := by
  intro t
  unfold Inv Ordered
  infer_instance

end Invariants

section InorderPreservation

variable {α β : Type}

theorem to_vector_rotate_right (t : Tree α β) :
    t.rotate_right.to_vector = t.to_vector := by
  match t with
  | .leaf => rfl
  | .node yk yi .leaf r h => rfl
  | .node yk yi (.node xk xi a t2 xh) r h =>
    simp [Tree.rotate_right, Tree.to_vector]

theorem to_vector_rotate_left (t : Tree α β) :
    t.rotate_left.to_vector = t.to_vector := by
  match t with
  | .leaf => rfl
  | .node xk xi l .leaf h => rfl
  | .node xk xi l (.node yk yi t2 b yh) h =>
    simp [Tree.rotate_left, Tree.to_vector]

theorem to_vector_rebalance (t : Tree α β) :
    t.rebalance.to_vector = t.to_vector := by
  match t with
  | .leaf => rfl
  | .node k i l r h =>
    rw [Tree.rebalance]
    split <;> [skip; split] <;> [skip; skip; split] <;> [skip; skip; skip; split] <;>
      simp [to_vector_rotate_right, to_vector_rotate_left, Tree.to_vector]

end InorderPreservation

/-! Association-list models of the observable effect of the tree
operations on the in-order sequence. -/

section KvLists

variable {α β : Type}

/-- First-match lookup in an entry list. -/
def keyLookup [DecidableEq α] : List (α × β) → α → Option β
  | [], _ => none
  | (k', i') :: rest, k => if k = k' then some i' else keyLookup rest k

/-- Insert-or-replace into a (sorted) entry list, keeping order. -/
def kvInsert [LinearOrder α] (k : α) (i : β) : List (α × β) → List (α × β)
  | [] => [(k, i)]
  | (k', i') :: rest =>
    if k < k' then (k, i) :: (k', i') :: rest
    else if k = k' then (k, i) :: rest
    else (k', i') :: kvInsert k i rest

/-- Remove the first entry with the given key, if any. -/
def kvErase [DecidableEq α] (k : α) : List (α × β) → List (α × β)
  | [] => []
  | (k', i') :: rest => if k = k' then rest else (k', i') :: kvErase k rest

theorem keys_append (L M : List (α × β)) : keys (L ++ M) = keys L ++ keys M :=
  List.map_append _ _ _

theorem keyLookup_eq_none_of_not_mem [DecidableEq α] {L : List (α × β)} {k : α}
    (h : k ∉ keys L) : keyLookup L k = none := by
  induction L with
  | nil => rfl
  | cons e rest ih =>
    obtain ⟨k', i'⟩ := e
    simp only [keys, List.map_cons, List.mem_cons, not_or] at h
    simp only [keyLookup, if_neg h.1, ih h.2]

theorem keyLookup_isSome_iff_mem [DecidableEq α] {L : List (α × β)} {k : α} :
    (keyLookup L k).isSome ↔ k ∈ keys L := by
  induction L with
  | nil => simp [keyLookup, keys]
  | cons e rest ih =>
    obtain ⟨k', i'⟩ := e
    by_cases hk : k = k' <;> simp [keyLookup, keys, hk, ih]

theorem keyLookup_append_of_eq_none [DecidableEq α] {L : List (α × β)} {k : α}
    (M : List (α × β)) (h : keyLookup L k = none) :
    keyLookup (L ++ M) k = keyLookup M k := by
  induction L with
  | nil => rfl
  | cons e rest ih =>
    obtain ⟨k', i'⟩ := e
    simp only [keyLookup] at h ⊢
    by_cases hk : k = k'
    · simp [hk] at h
    · rw [if_neg hk] at h ⊢
      exact ih h

theorem keyLookup_append_of_eq_some [DecidableEq α] {L : List (α × β)} {k : α} {v : β}
    (M : List (α × β)) (h : keyLookup L k = some v) :
    keyLookup (L ++ M) k = some v := by
  induction L with
  | nil => simp [keyLookup] at h
  | cons e rest ih =>
    obtain ⟨k', i'⟩ := e
    simp only [keyLookup] at h ⊢
    by_cases hk : k = k'
    · rwa [if_pos hk] at h ⊢
    · rw [if_neg hk] at h ⊢
      exact ih h

theorem kvInsert_append_lt [LinearOrder α] {k nk : α} (i ni : β)
    (L R : List (α × β)) (h : k < nk) :
    kvInsert k i (L ++ (nk, ni) :: R) = kvInsert k i L ++ (nk, ni) :: R := by
  induction L with
  | nil => simp [kvInsert, if_pos h]
  | cons e rest ih =>
    obtain ⟨k', i'⟩ := e
    by_cases h1 : k < k'
    · simp [kvInsert, if_pos h1]
    · by_cases h2 : k = k' <;> simp [kvInsert, if_neg h1, h2, ih]

theorem kvInsert_append_gt [LinearOrder α] {k nk : α} (i ni : β)
    (L R : List (α × β)) (hL : ∀ a ∈ keys L, a < k) (h : nk < k) :
    kvInsert k i (L ++ (nk, ni) :: R) = L ++ (nk, ni) :: kvInsert k i R := by
  induction L with
  | nil => simp [kvInsert, if_neg (not_lt_of_gt h), if_neg (ne_of_gt h)]
  | cons e rest ih =>
    obtain ⟨k', i'⟩ := e
    have hk' : k' < k := hL k' (by simp [keys])
    have hrest : ∀ a ∈ keys rest, a < k := fun a ha => hL a (by simp [keys] at ha ⊢; right; exact ha)
    simp only [List.cons_append, kvInsert, if_neg (not_lt_of_gt hk'), if_neg (ne_of_gt hk'),
      List.append_eq]
    rw [ih hrest]

theorem kvInsert_append_eq [LinearOrder α] {k : α} (i ni : β)
    (L R : List (α × β)) (hL : ∀ a ∈ keys L, a < k) :
    kvInsert k i (L ++ (k, ni) :: R) = L ++ (k, i) :: R := by
  induction L with
  | nil => simp [kvInsert]
  | cons e rest ih =>
    obtain ⟨k', i'⟩ := e
    have hk' : k' < k := hL k' (by simp [keys])
    have hrest : ∀ a ∈ keys rest, a < k := fun a ha => hL a (by simp [keys] at ha ⊢; right; exact ha)
    simp only [List.cons_append, kvInsert, if_neg (not_lt_of_gt hk'), if_neg (ne_of_gt hk'),
      List.append_eq]
    rw [ih hrest]

theorem mem_keys_kvInsert [LinearOrder α] {k a : α} {i : β} {L : List (α × β)}
    (h : a ∈ keys (kvInsert k i L)) : a = k ∨ a ∈ keys L := by
  induction L with
  | nil => simpa [kvInsert, keys] using h
  | cons e rest ih =>
    obtain ⟨k', i'⟩ := e
    by_cases h1 : k < k'
    · rw [kvInsert, if_pos h1] at h
      simpa [keys] using h
    · by_cases h2 : k = k'
      · rw [kvInsert, if_neg h1, if_pos h2] at h
        simp only [keys, List.map_cons, List.mem_cons] at h ⊢
        tauto
      · rw [kvInsert, if_neg h1, if_neg h2] at h
        simp only [keys, List.map_cons, List.mem_cons] at h ⊢
        rcases h with rfl | h
        · tauto
        · rcases ih h with rfl | h <;> tauto

theorem pairwise_kvInsert [LinearOrder α] {k : α} {i : β} {L : List (α × β)}
    (h : List.Pairwise (· < ·) (keys L)) :
    List.Pairwise (· < ·) (keys (kvInsert k i L)) := by
  induction L with
  | nil => simp [kvInsert, keys]
  | cons e rest ih =>
    obtain ⟨k', i'⟩ := e
    simp only [keys, List.map_cons, List.pairwise_cons] at h
    by_cases h1 : k < k'
    · simp only [kvInsert, if_pos h1, keys, List.map_cons, List.pairwise_cons]
      refine ⟨?_, h.1, h.2⟩
      intro a ha
      simp only [List.mem_cons] at ha
      rcases ha with rfl | ha
      · exact h1
      · exact h1.trans (h.1 a ha)
    · by_cases h2 : k = k'
      · subst h2
        rw [kvInsert, if_neg h1, if_pos rfl]
        simp only [keys, List.map_cons, List.pairwise_cons]
        exact h
      · rw [kvInsert, if_neg h1, if_neg h2]
        simp only [keys, List.map_cons, List.pairwise_cons]
        refine ⟨?_, ih h.2⟩
        intro a ha
        rcases mem_keys_kvInsert ha with rfl | ha
        · rcases lt_trichotomy k' a with hlt | rfl | hlt
          · exact hlt
          · exact absurd rfl h2
          · exact absurd hlt (by simpa using h1)
        · exact h.1 a ha

theorem keyLookup_kvInsert_self [LinearOrder α] (k : α) (i : β) (L : List (α × β)) :
    keyLookup (kvInsert k i L) k = some i := by
  induction L with
  | nil => simp [kvInsert, keyLookup]
  | cons e rest ih =>
    obtain ⟨k', i'⟩ := e
    by_cases h1 : k < k'
    · simp [kvInsert, if_pos h1, keyLookup]
    · by_cases h2 : k = k'
      · simp [kvInsert, if_neg h1, if_pos h2, keyLookup]
      · simp [kvInsert, if_neg h1, if_neg h2, keyLookup, h2, ih]

theorem keyLookup_kvInsert_ne [LinearOrder α] {k k' : α} (i : β) (L : List (α × β))
    (h : k' ≠ k) : keyLookup (kvInsert k i L) k' = keyLookup L k' := by
  induction L with
  | nil => simp [kvInsert, keyLookup, h]
  | cons e rest ih =>
    obtain ⟨k0, i0⟩ := e
    by_cases h1 : k < k0
    · simp [kvInsert, if_pos h1, keyLookup, h]
    · by_cases h2 : k = k0
      · subst h2
        simp [kvInsert, if_neg h1, keyLookup, h]
      · simp [kvInsert, if_neg h1, if_neg h2, keyLookup, ih]

theorem length_kvInsert_of_mem [LinearOrder α] {k : α} (i : β) {L : List (α × β)}
    (hP : List.Pairwise (· < ·) (keys L)) (hm : k ∈ keys L) :
    (kvInsert k i L).length = L.length := by
  induction L with
  | nil => simp [keys] at hm
  | cons e rest ih =>
    obtain ⟨k', i'⟩ := e
    simp only [keys, List.map_cons, List.pairwise_cons] at hP
    simp only [keys, List.map_cons, List.mem_cons] at hm
    by_cases h2 : k = k'
    · have h1 : ¬ k < k' := by simp [h2]
      simp [kvInsert, if_neg h1, if_pos h2]
    · have hmr : k ∈ keys rest := by tauto
      have h1 : ¬ k < k' := not_lt_of_gt (hP.1 k hmr)
      simp [kvInsert, if_neg h1, if_neg h2, ih hP.2 hmr]

theorem kvErase_of_not_mem [DecidableEq α] {k : α} {L : List (α × β)}
    (h : k ∉ keys L) : kvErase k L = L := by
  induction L with
  | nil => rfl
  | cons e rest ih =>
    obtain ⟨k', i'⟩ := e
    simp only [keys, List.map_cons, List.mem_cons, not_or] at h
    simp [kvErase, if_neg h.1, ih h.2]

theorem kvErase_append_of_ne [DecidableEq α] {k nk : α} (ni : β) (L R : List (α × β))
    (h1 : k ≠ nk) (h2 : k ∉ keys R) :
    kvErase k (L ++ (nk, ni) :: R) = kvErase k L ++ (nk, ni) :: R := by
  induction L with
  | nil => simp [kvErase, if_neg h1, kvErase_of_not_mem h2]
  | cons e rest ih =>
    obtain ⟨k', i'⟩ := e
    by_cases hk : k = k' <;> simp [kvErase, hk, ih]

theorem kvErase_append_self [DecidableEq α] {k : α} (ni : β) (L R : List (α × β))
    (hL : k ∉ keys L) : kvErase k (L ++ (k, ni) :: R) = L ++ R := by
  induction L with
  | nil => simp [kvErase]
  | cons e rest ih =>
    obtain ⟨k', i'⟩ := e
    simp only [keys, List.map_cons, List.mem_cons, not_or] at hL
    simp [kvErase, if_neg hL.1, ih hL.2]

theorem kvErase_sublist [DecidableEq α] (k : α) (L : List (α × β)) :
    (kvErase k L).Sublist L := by
  induction L with
  | nil => simp [kvErase]
  | cons e rest ih =>
    obtain ⟨k', i'⟩ := e
    by_cases hk : k = k'
    · simp only [kvErase, if_pos hk]
      exact (List.sublist_cons_self _ _)
    · simp only [kvErase, if_neg hk]
      exact ih.cons₂ _

theorem pairwise_kvErase [DecidableEq α] [LT α] {k : α} {L : List (α × β)}
    (h : List.Pairwise (· < ·) (keys L)) :
    List.Pairwise (· < ·) (keys (kvErase k L)) :=
  List.Pairwise.sublist (List.Sublist.map Prod.fst (kvErase_sublist k L)) h

theorem keyLookup_kvErase_ne [DecidableEq α] {k k' : α} {L : List (α × β)}
    (h : k' ≠ k) : keyLookup (kvErase k L) k' = keyLookup L k' := by
  induction L with
  | nil => rfl
  | cons e rest ih =>
    obtain ⟨k0, i0⟩ := e
    by_cases hk : k = k0
    · subst hk
      simp [kvErase, keyLookup, if_neg h]
    · simp [kvErase, if_neg hk, keyLookup, ih]

theorem keyLookup_kvErase_self [LinearOrder α] {k : α} {L : List (α × β)}
    (hP : List.Pairwise (· < ·) (keys L)) : keyLookup (kvErase k L) k = none := by
  induction L with
  | nil => rfl
  | cons e rest ih =>
    obtain ⟨k0, i0⟩ := e
    simp only [keys, List.map_cons, List.pairwise_cons] at hP
    by_cases hk : k = k0
    · subst hk
      simp only [kvErase, if_pos rfl]
      refine keyLookup_eq_none_of_not_mem fun hm => ?_
      exact lt_irrefl k (hP.1 k hm)
    · simp [kvErase, if_neg hk, keyLookup, hk, ih hP.2]

theorem kvErase_append_right [DecidableEq α] {k nk : α} (ni : β) (L R : List (α × β))
    (hL : k ∉ keys L) (h : k ≠ nk) :
    kvErase k (L ++ (nk, ni) :: R) = L ++ (nk, ni) :: kvErase k R := by
  induction L with
  | nil => simp [kvErase, if_neg h]
  | cons e rest ih =>
    obtain ⟨k', i'⟩ := e
    simp only [keys, List.map_cons, List.mem_cons, not_or] at hL
    simp [kvErase, if_neg hL.1, ih hL.2]

end KvLists

/-! Functional correctness of the tree operations relative to the
association-list models, under the BST invariant. -/

section TreeListCorrespondence

variable {α β : Type}

theorem remove_node [LinearOrder α] (nk : α) (ni : β) (l r : Tree α β) (h : Int) (k : α) :
    (Tree.node nk ni l r h).remove k =
    (if k < nk then Tree.rebalance (.node nk ni (l.remove k) r h)
    else if nk < k then Tree.rebalance (.node nk ni l (r.remove k) h)
    else
      match l, r with
      | .leaf, .leaf => .leaf
      | .leaf, .node rk ri rl rr rh => Tree.rebalance (.node rk ri rl rr rh)
      | .node lk li ll lr lh, .leaf => Tree.rebalance (.node lk li ll lr lh)
      | .node lk li ll lr lh, .node rk ri rl rr rh =>
        let s := Tree.min_node rk ri rl
        Tree.rebalance (.node s.1 s.2 (.node lk li ll lr lh)
          ((Tree.node rk ri rl rr rh).remove s.1) h)) := by
  rw [Tree.remove.eq_def]

theorem keys_to_vector_node (nk : α) (ni : β) (l r : Tree α β) (h : Int) :
    keys (Tree.node nk ni l r h).to_vector =
      keys l.to_vector ++ nk :: keys r.to_vector := by
  simp [Tree.to_vector, keys]

theorem ordered_node_iff [LinearOrder α] {nk : α} {ni : β} {l r : Tree α β} {h : Int} :
    Ordered (Tree.node nk ni l r h) ↔
      Ordered l ∧ Ordered r ∧
        (∀ a ∈ keys l.to_vector, a < nk) ∧ (∀ a ∈ keys r.to_vector, nk < a) := by
  unfold Ordered
  rw [keys_to_vector_node, List.pairwise_append]
  simp only [List.pairwise_cons, List.mem_cons]
  constructor
  · rintro ⟨h1, ⟨h2, h3⟩, h4⟩
    exact ⟨h1, h3, fun a ha => h4 a ha nk (Or.inl rfl), h2⟩
  · rintro ⟨h1, h2, h3, h4⟩
    refine ⟨h1, ⟨h4, h2⟩, fun a ha b hb => ?_⟩
    rcases hb with rfl | hb
    · exact h3 a ha
    · exact (h3 a ha).trans (h4 b hb)

theorem find_eq_keyLookup [LinearOrder α] {t : Tree α β} (ho : Ordered t) (k : α) :
    t.find k = keyLookup t.to_vector k := by
  induction t with
  | leaf => rfl
  | node nk ni l r h ihl ihr =>
    rcases ordered_node_iff.mp ho with ⟨hol, hor, hbl, hbr⟩
    rw [Tree.find, Tree.to_vector]
    by_cases hk : k = nk
    · subst hk
      rw [if_pos rfl,
        keyLookup_append_of_eq_none _
          (keyLookup_eq_none_of_not_mem fun hm => lt_irrefl k (hbl k hm))]
      simp [keyLookup]
    · rw [if_neg hk]
      by_cases hlt : k < nk
      · rw [if_pos hlt, ihl hol]
        cases hx : keyLookup l.to_vector k with
        | some v => rw [keyLookup_append_of_eq_some _ hx]
        | none =>
          rw [keyLookup_append_of_eq_none _ hx]
          simp only [keyLookup, if_neg hk]
          exact (keyLookup_eq_none_of_not_mem fun hm =>
            absurd (hlt.trans (hbr k hm)) (lt_irrefl k)).symm
      · rw [if_neg hlt, ihr hor]
        rw [keyLookup_append_of_eq_none _
          (keyLookup_eq_none_of_not_mem fun hm => hlt (hbl k hm)),
          keyLookup]
        rw [if_neg hk]

theorem to_vector_insert [LinearOrder α] {t : Tree α β} (ho : Ordered t) (k : α) (i : β) :
    (t.insert k i).to_vector = kvInsert k i t.to_vector := by
  induction t with
  | leaf => rfl
  | node nk ni l r h ihl ihr =>
    rcases ordered_node_iff.mp ho with ⟨hol, hor, hbl, hbr⟩
    rw [Tree.insert]
    by_cases hlt : k < nk
    · rw [if_pos hlt, to_vector_rebalance, Tree.to_vector, ihl hol, Tree.to_vector,
        kvInsert_append_lt _ _ _ _ hlt]
    · rw [if_neg hlt]
      by_cases hgt : nk < k
      · rw [if_pos hgt, to_vector_rebalance, Tree.to_vector, ihr hor, Tree.to_vector,
          kvInsert_append_gt _ _ _ _ (fun a ha => (hbl a ha).trans hgt) hgt]
      · have : k = nk := le_antisymm (not_lt.mp hgt) (not_lt.mp hlt)
        subst this
        rw [if_neg (lt_irrefl k), Tree.to_vector, Tree.to_vector,
          kvInsert_append_eq _ _ _ _ hbl]

theorem ordered_insert [LinearOrder α] {t : Tree α β} (ho : Ordered t) (k : α) (i : β) :
    Ordered (t.insert k i) := by
  unfold Ordered
  rw [to_vector_insert ho]
  exact pairwise_kvInsert ho

theorem find_insert [LinearOrder α] {t : Tree α β} (ho : Ordered t) (k k' : α) (i : β) :
    (t.insert k i).find k' = if k' = k then some i else t.find k' := by
  rw [find_eq_keyLookup (ordered_insert ho k i), to_vector_insert ho]
  by_cases hk : k' = k
  · subst hk
    rw [if_pos rfl, keyLookup_kvInsert_self]
  · rw [if_neg hk, keyLookup_kvInsert_ne _ _ hk, find_eq_keyLookup ho]

theorem min_node_cons (rk : α) (ri : β) (rl : Tree α β) :
    ∀ (rest : Tree α β) (rh : Int), ∃ tl,
      (Tree.node rk ri rl rest rh).to_vector = Tree.min_node rk ri rl :: tl := by
  induction rl generalizing rk ri with
  | leaf =>
    intro rest rh
    exact ⟨rest.to_vector, by simp [Tree.to_vector, Tree.min_node]⟩
  | node lk li ll lr lh ihll ihlr =>
    intro rest rh
    obtain ⟨tl0, htl0⟩ := ihll lk li lr lh
    refine ⟨tl0 ++ (rk, ri) :: rest.to_vector, ?_⟩
    rw [Tree.min_node, Tree.to_vector, htl0]
    simp

theorem to_vector_remove [LinearOrder α] {t : Tree α β} :
    ∀ k : α, Ordered t → (t.remove k).to_vector = kvErase k t.to_vector := by
  induction t with
  | leaf => intro k ho; rfl
  | node nk ni l r h ihl ihr =>
    intro k ho
    rcases ordered_node_iff.mp ho with ⟨hol, hor, hbl, hbr⟩
    rw [remove_node]
    by_cases hlt : k < nk
    · rw [if_pos hlt, to_vector_rebalance, Tree.to_vector, ihl k hol, Tree.to_vector,
        kvErase_append_of_ne _ _ _ hlt.ne
          (fun hm => absurd (hlt.trans (hbr k hm)) (lt_irrefl k))]
    · rw [if_neg hlt]
      by_cases hgt : nk < k
      · rw [if_pos hgt, to_vector_rebalance, Tree.to_vector, ihr k hor, Tree.to_vector,
          kvErase_append_right _ _ _
            (fun hm => absurd ((hbl k hm).trans hgt) (lt_irrefl k)) hgt.ne']
      · have hk : k = nk := le_antisymm (not_lt.mp hgt) (not_lt.mp hlt)
        subst hk
        rw [if_neg hgt]
        have hnotL : k ∉ keys l.to_vector := fun hm => lt_irrefl k (hbl k hm)
        match l, hol, hbl, hnotL, ihl with
        | .leaf, _, _, _, _ =>
          match r, hor, ihr with
          | .leaf, _, _ =>
            show ([] : List (α × β)) = kvErase k [(k, ni)]
            rw [kvErase, if_pos rfl]
          | .node rk ri rl rr rh, _, _ =>
            dsimp only
            rw [to_vector_rebalance, Tree.to_vector]
            simp [Tree.to_vector, kvErase]
        | .node lk li ll lr lh, hol, hbl, hnotL, ihl =>
          match r, hor, ihr with
          | .leaf, _, _ =>
            dsimp only
            rw [to_vector_rebalance, Tree.to_vector, Tree.to_vector,
              kvErase_append_self _ _ _ hnotL]
            simp [Tree.to_vector]
          | .node rk ri rl rr rh, hor, ihr =>
            dsimp only
            obtain ⟨tl, htl⟩ := min_node_cons rk ri rl rr rh
            rcases hs : Tree.min_node rk ri rl with ⟨sk, si⟩
            rw [hs] at htl
            rw [to_vector_rebalance]
            show (Tree.node lk li ll lr lh).to_vector ++
                (sk, si) :: ((Tree.node rk ri rl rr rh).remove sk).to_vector =
              kvErase k ((Tree.node lk li ll lr lh).to_vector ++
                (k, ni) :: (Tree.node rk ri rl rr rh).to_vector)
            rw [ihr sk hor, htl, kvErase, if_pos rfl,
              kvErase_append_self _ _ _ hnotL]


theorem ordered_remove [LinearOrder α] {t : Tree α β} (ho : Ordered t) (k : α) :
    Ordered (t.remove k) := by
  unfold Ordered
  rw [to_vector_remove k ho]
  exact pairwise_kvErase ho

theorem find_remove [LinearOrder α] {t : Tree α β} (ho : Ordered t) (k k' : α) :
    (t.remove k).find k' = if k' = k then none else t.find k' := by
  rw [find_eq_keyLookup (ordered_remove ho k), to_vector_remove k ho]
  by_cases hk : k' = k
  · subst hk
    rw [if_pos rfl, keyLookup_kvErase_self ho]
  · rw [if_neg hk, keyLookup_kvErase_ne hk, find_eq_keyLookup ho]

theorem keys_set_info [LinearOrder α] (t : Tree α β) (k : α) (i : β) :
    keys (t.set_info k i).to_vector = keys t.to_vector := by
  induction t with
  | leaf => rfl
  | node nk ni l r h ihl ihr =>
    rw [Tree.set_info]
    by_cases h1 : k = nk
    · rw [if_pos h1, keys_to_vector_node, keys_to_vector_node]
    · rw [if_neg h1]
      by_cases h2 : k < nk
      · rw [if_pos h2, keys_to_vector_node, keys_to_vector_node, ihl]
      · rw [if_neg h2, keys_to_vector_node, keys_to_vector_node, ihr]

theorem ordered_set_info [LinearOrder α] {t : Tree α β} (ho : Ordered t) (k : α) (i : β) :
    Ordered (t.set_info k i) := by
  unfold Ordered
  rw [keys_set_info]
  exact ho

theorem set_info_of_find_none [LinearOrder α] {t : Tree α β} {k : α} (i : β)
    (h : t.find k = none) : t.set_info k i = t := by
  induction t with
  | leaf => rfl
  | node nk ni l r ht ihl ihr =>
    rw [Tree.find] at h
    rw [Tree.set_info]
    by_cases h1 : k = nk
    · rw [if_pos h1] at h
      exact absurd h (by simp)
    · rw [if_neg h1] at h
      rw [if_neg h1]
      by_cases h2 : k < nk
      · rw [if_pos h2] at h
        rw [if_pos h2, ihl h]
      · rw [if_neg h2] at h
        rw [if_neg h2, ihr h]

theorem find_set_info_self [LinearOrder α] {t : Tree α β} {k : α} {v : β} (i : β)
    (h : t.find k = some v) : (t.set_info k i).find k = some i := by
  induction t with
  | leaf => exact absurd h (by rw [Tree.find]; simp)
  | node nk ni l r ht ihl ihr =>
    rw [Tree.find] at h
    rw [Tree.set_info]
    by_cases h1 : k = nk
    · rw [if_pos h1, Tree.find, if_pos h1]
    · rw [if_neg h1] at h
      rw [if_neg h1]
      by_cases h2 : k < nk
      · rw [if_pos h2] at h
        rw [if_pos h2, Tree.find, if_neg h1, if_pos h2]
        exact ihl h
      · rw [if_neg h2] at h
        rw [if_neg h2, Tree.find, if_neg h1, if_neg h2]
        exact ihr h

theorem find_set_info_ne [LinearOrder α] {t : Tree α β} {k k' : α} (i : β)
    (h : k' ≠ k) : (t.set_info k i).find k' = t.find k' := by
  induction t with
  | leaf => rfl
  | node nk ni l r ht ihl ihr =>
    rw [Tree.set_info]
    by_cases h1 : k = nk
    · subst h1
      rw [if_pos rfl, Tree.find, Tree.find, if_neg h, if_neg h]
    · rw [if_neg h1]
      by_cases h2 : k < nk
      · rw [if_pos h2, Tree.find, Tree.find]
        by_cases h3 : k' = nk
        · rw [if_pos h3, if_pos h3]
        · rw [if_neg h3, if_neg h3]
          by_cases h4 : k' < nk
          · rw [if_pos h4, if_pos h4, ihl]
          · rw [if_neg h4, if_neg h4]
      · rw [if_neg h2, Tree.find, Tree.find]
        by_cases h3 : k' = nk
        · rw [if_pos h3, if_pos h3]
        · rw [if_neg h3, if_neg h3]
          by_cases h4 : k' < nk
          · rw [if_pos h4, if_pos h4]
          · rw [if_neg h4, if_neg h4, ihr]

end TreeListCorrespondence

/-! Preservation of the cached-height and AVL balance invariants. -/

section HeightBalance

variable {α β : Type}

theorem height_leaf : (Tree.leaf : Tree α β).height = 0 := rfl

theorem height_node (k : α) (i : β) (l r : Tree α β) (h : Int) :
    (Tree.node k i l r h).height = h := rfl

theorem balance_factor_node (k : α) (i : β) (l r : Tree α β) (h : Int) :
    (Tree.node k i l r h).balance_factor = l.height - r.height := rfl

theorem htok_node {k : α} {i : β} {l r : Tree α β} {h : Int} :
    HtOk (Tree.node k i l r h) ↔ h = 1 + max l.height r.height ∧ HtOk l ∧ HtOk r := Iff.rfl

theorem bal_node {k : α} {i : β} {l r : Tree α β} {h : Int} :
    Bal (Tree.node k i l r h) ↔
      (l.height - r.height ≤ 1 ∧ r.height - l.height ≤ 1) ∧ Bal l ∧ Bal r := Iff.rfl

theorem height_nonneg : {t : Tree α β} → HtOk t → 0 ≤ t.height
  | .leaf, _ => le_refl 0
  | .node _ _ l r h, ht => by
    obtain ⟨hh, hl, hr⟩ := htok_node.mp ht
    have h1 := height_nonneg hl
    have h2 := height_nonneg hr
    rw [height_node, hh]
    omega

theorem rebalance_node (k : α) (i : β) (l r : Tree α β) (h0 : Int) :
    Tree.rebalance (.node k i l r h0) =
    (if 1 < l.height - r.height ∧ 0 ≤ l.balance_factor then
      Tree.rotate_right (.node k i l r (1 + max l.height r.height))
    else if l.height - r.height < -1 ∧ r.balance_factor ≤ 0 then
      Tree.rotate_left (.node k i l r (1 + max l.height r.height))
    else if 1 < l.height - r.height ∧ l.balance_factor < 0 then
      Tree.rotate_right (.node k i l.rotate_left r (1 + max l.height r.height))
    else if l.height - r.height < -1 ∧ 0 < r.balance_factor then
      Tree.rotate_left (.node k i l r.rotate_right (1 + max l.height r.height))
    else .node k i l r (1 + max l.height r.height)) := rfl

theorem rotate_right_node (yk : α) (yi : β) (xk : α) (xi : β) (a t2 r : Tree α β)
    (xh yh : Int) :
    Tree.rotate_right (.node yk yi (.node xk xi a t2 xh) r yh) =
    .node xk xi a (.node yk yi t2 r (1 + max t2.height r.height))
      (1 + max a.height (1 + max t2.height r.height)) := rfl

theorem rotate_left_node (xk : α) (xi : β) (yk : α) (yi : β) (l t2 b : Tree α β)
    (yh xh : Int) :
    Tree.rotate_left (.node xk xi l (.node yk yi t2 b yh) xh) =
    .node yk yi (.node xk xi l t2 (1 + max l.height t2.height)) b
      (1 + max (1 + max l.height t2.height) b.height) := rfl

theorem rebalance_eq_self {t : Tree α β} (ht : HtOk t) (hb : Bal t) :
    t.rebalance = t := by
  cases t with
  | leaf => rfl
  | node k i l r h =>
    obtain ⟨hh, _, _⟩ := htok_node.mp ht
    obtain ⟨⟨b1, b2⟩, _, _⟩ := bal_node.mp hb
    rw [rebalance_node, if_neg (by rintro ⟨hg, -⟩; omega),
      if_neg (by rintro ⟨hg, -⟩; omega), if_neg (by rintro ⟨hg, -⟩; omega),
      if_neg (by rintro ⟨hg, -⟩; omega), ← hh]

theorem rebalance_spec (k : α) (i : β) (l r : Tree α β) (h0 : Int)
    (hl : HtOk l) (hr : HtOk r) (bl : Bal l) (br : Bal r)
    (hd1 : l.height - r.height ≤ 2) (hd2 : r.height - l.height ≤ 2) :
    HtOk (Tree.rebalance (.node k i l r h0)) ∧
    Bal (Tree.rebalance (.node k i l r h0)) ∧
    max l.height r.height ≤ (Tree.rebalance (.node k i l r h0)).height ∧
    (Tree.rebalance (.node k i l r h0)).height ≤ 1 + max l.height r.height ∧
    (l.height - r.height ≤ 1 → r.height - l.height ≤ 1 →
      Tree.rebalance (.node k i l r h0) = .node k i l r (1 + max l.height r.height)) := by
  have hlnn := height_nonneg hl
  have hrnn := height_nonneg hr
  rw [rebalance_node]
  by_cases hA : l.height - r.height ≤ 1 ∧ r.height - l.height ≤ 1
  · rw [if_neg (by rintro ⟨hg, -⟩; omega), if_neg (by rintro ⟨hg, -⟩; omega),
      if_neg (by rintro ⟨hg, -⟩; omega), if_neg (by rintro ⟨hg, -⟩; omega)]
    refine ⟨⟨rfl, hl, hr⟩, ⟨⟨hA.1, hA.2⟩, bl, br⟩, ?_, ?_, fun _ _ => rfl⟩ <;>
      first
        | omega
        | (simp only [height_node]; try omega)
  · have hsplit : l.height - r.height = 2 ∨ r.height - l.height = 2 := by
      rcases not_and_or.mp hA with hx | hx
      · left; omega
      · right; omega
    rcases hsplit with hbf2 | hbf2
    · -- left-heavy by exactly 2: the left child exists
      cases l with
      | leaf => exfalso; rw [height_leaf] at hbf2; omega
      | node lk li ll lr lh =>
        obtain ⟨hlh, hll, hlr⟩ := htok_node.mp hl
        obtain ⟨⟨bl1, bl2⟩, bll, blr⟩ := bal_node.mp bl
        have hllnn := height_nonneg hll
        have hlrnn := height_nonneg hlr
        rw [height_node] at hbf2 hlnn ⊢
        by_cases hbfl : 0 ≤ ll.height - lr.height
        · -- single right rotation
          rw [if_pos ⟨by omega, show (0:Int) ≤ ll.height - lr.height from hbfl⟩,
            rotate_right_node]
          refine ⟨⟨rfl, hll, rfl, hlr, hr⟩,
            ⟨⟨?_, ?_⟩, bll, ⟨⟨?_, ?_⟩, blr, br⟩⟩, ?_, ?_, ?_⟩ <;>
            first
              | omega
              | (simp only [height_node]; try omega)
        · -- left-right double rotation: the inner child exists
          cases lr with
          | leaf => exfalso; rw [height_leaf] at hbfl; omega
          | node mk mi ml mr mh =>
            obtain ⟨hmh, hml, hmr⟩ := htok_node.mp hlr
            obtain ⟨⟨bm1, bm2⟩, bml, bmr⟩ := bal_node.mp blr
            have hmlnn := height_nonneg hml
            have hmrnn := height_nonneg hmr
            rw [height_node] at hlh hbfl bl1 bl2 hlrnn
            rw [if_neg (by rintro ⟨-, hg⟩; rw [balance_factor_node, height_node] at hg; omega),
              if_neg (by rintro ⟨hg, -⟩; omega),
              if_pos ⟨by omega, by rw [balance_factor_node, height_node]; omega⟩,
              rotate_left_node, rotate_right_node]
            refine ⟨⟨rfl, ⟨rfl, hll, hml⟩, rfl, hmr, hr⟩,
              ⟨⟨?_, ?_⟩, ⟨⟨?_, ?_⟩, bll, bml⟩, ⟨⟨?_, ?_⟩, bmr, br⟩⟩, ?_, ?_, ?_⟩ <;>
              first
                | omega
                | (simp only [height_node]; try omega)
    · -- right-heavy by exactly 2: the right child exists
      cases r with
      | leaf => exfalso; rw [height_leaf] at hbf2; omega
      | node rk ri rl rr rh =>
        obtain ⟨hrh, hrl, hrr⟩ := htok_node.mp hr
        obtain ⟨⟨br1, br2⟩, brl, brr⟩ := bal_node.mp br
        have hrlnn := height_nonneg hrl
        have hrrnn := height_nonneg hrr
        rw [height_node] at hbf2 hrnn ⊢
        by_cases hbfr : rl.height - rr.height ≤ 0
        · -- single left rotation
          rw [if_neg (by rintro ⟨hg, -⟩; omega),
            if_pos ⟨by omega, show rl.height - rr.height ≤ (0:Int) from hbfr⟩,
            rotate_left_node]
          refine ⟨⟨rfl, ⟨rfl, hl, hrl⟩, hrr⟩,
            ⟨⟨?_, ?_⟩, ⟨⟨?_, ?_⟩, bl, brl⟩, brr⟩, ?_, ?_, ?_⟩ <;>
            first
              | omega
              | (simp only [height_node]; try omega)
        · -- right-left double rotation: the inner child exists
          cases rl with
          | leaf => exfalso; rw [height_leaf] at hbfr; omega
          | node mk mi ml mr mh =>
            obtain ⟨hmh, hml, hmr⟩ := htok_node.mp hrl
            obtain ⟨⟨bm1, bm2⟩, bml, bmr⟩ := bal_node.mp brl
            have hmlnn := height_nonneg hml
            have hmrnn := height_nonneg hmr
            rw [height_node] at hrh hbfr br1 br2 hrlnn
            rw [if_neg (by rintro ⟨hg, -⟩; omega),
              if_neg (by rintro ⟨-, hg⟩; rw [balance_factor_node, height_node] at hg; omega),
              if_neg (by rintro ⟨hg, -⟩; omega),
              if_pos ⟨by omega, by rw [balance_factor_node, height_node]; omega⟩,
              rotate_right_node, rotate_left_node]
            refine ⟨⟨rfl, ⟨rfl, hl, hml⟩, rfl, hmr, hrr⟩,
              ⟨⟨?_, ?_⟩, ⟨⟨?_, ?_⟩, bl, bml⟩, ⟨⟨?_, ?_⟩, bmr, brr⟩⟩, ?_, ?_, ?_⟩ <;>
              first
                | omega
                | (simp only [height_node]; try omega)

theorem insert_spec [LinearOrder α] (k : α) (i : β) {t : Tree α β} :
    HtOk t → Bal t →
      HtOk (t.insert k i) ∧ Bal (t.insert k i) ∧
      t.height ≤ (t.insert k i).height ∧ (t.insert k i).height ≤ t.height + 1 := by
  induction t with
  | leaf =>
    intro _ _
    refine ⟨⟨?_, trivial, trivial⟩, ⟨⟨?_, ?_⟩, trivial, trivial⟩, ?_, ?_⟩ <;>
      simp [Tree.insert, height_leaf, height_node]
  | node nk ni l r h ihl ihr =>
    intro ht hb
    obtain ⟨hh, hl, hr⟩ := htok_node.mp ht
    obtain ⟨⟨b1, b2⟩, bl, br⟩ := bal_node.mp hb
    have hlnn := height_nonneg hl
    have hrnn := height_nonneg hr
    rw [Tree.insert]
    by_cases h1 : k < nk
    · rw [if_pos h1]
      obtain ⟨ih1, ih2, ih3, ih4⟩ := ihl hl bl
      obtain ⟨hs1, hs2, hs3, hs4, hs5⟩ :=
        rebalance_spec nk ni (l.insert k i) r h ih1 hr ih2 br (by omega) (by omega)
      have hH : h ≤ (Tree.rebalance (Tree.node nk ni (l.insert k i) r h)).height ∧
          (Tree.rebalance (Tree.node nk ni (l.insert k i) r h)).height ≤ h + 1 := by
        by_cases hx : (l.insert k i).height - r.height ≤ 1 ∧
            r.height - (l.insert k i).height ≤ 1
        · rw [hs5 hx.1 hx.2, height_node]
          omega
        · rcases not_and_or.mp hx with hx | hx <;> omega
      exact ⟨hs1, hs2, by rw [height_node]; exact hH.1, by rw [height_node]; exact hH.2⟩
    · rw [if_neg h1]
      by_cases h2 : nk < k
      · rw [if_pos h2]
        obtain ⟨ih1, ih2, ih3, ih4⟩ := ihr hr br
        obtain ⟨hs1, hs2, hs3, hs4, hs5⟩ :=
          rebalance_spec nk ni l (r.insert k i) h hl ih1 bl ih2 (by omega) (by omega)
        have hH : h ≤ (Tree.rebalance (Tree.node nk ni l (r.insert k i) h)).height ∧
            (Tree.rebalance (Tree.node nk ni l (r.insert k i) h)).height ≤ h + 1 := by
          by_cases hx : l.height - (r.insert k i).height ≤ 1 ∧
              (r.insert k i).height - l.height ≤ 1
          · rw [hs5 hx.1 hx.2, height_node]
            omega
          · rcases not_and_or.mp hx with hx | hx <;> omega
        exact ⟨hs1, hs2, by rw [height_node]; exact hH.1, by rw [height_node]; exact hH.2⟩
      · rw [if_neg h2]
        exact ⟨⟨hh, hl, hr⟩, ⟨⟨b1, b2⟩, bl, br⟩, le_refl _,
          by simp only [height_node]; omega⟩

theorem remove_spec [LinearOrder α] {t : Tree α β} :
    ∀ k : α, HtOk t → Bal t →
      HtOk (t.remove k) ∧ Bal (t.remove k) ∧
      t.height - 1 ≤ (t.remove k).height ∧ (t.remove k).height ≤ t.height := by
  induction t with
  | leaf =>
    intro k _ _
    rw [show (Tree.leaf : Tree α β).remove k = Tree.leaf from rfl]
    exact ⟨trivial, trivial, by rw [height_leaf]; omega, le_refl _⟩
  | node nk ni l r h ihl ihr =>
    intro k ht hb
    obtain ⟨hh, hl, hr⟩ := htok_node.mp ht
    obtain ⟨⟨b1, b2⟩, bl, br⟩ := bal_node.mp hb
    have hlnn := height_nonneg hl
    have hrnn := height_nonneg hr
    rw [remove_node]
    by_cases h1 : k < nk
    · rw [if_pos h1]
      obtain ⟨ih1, ih2, ih3, ih4⟩ := ihl k hl bl
      obtain ⟨hs1, hs2, hs3, hs4, hs5⟩ :=
        rebalance_spec nk ni (l.remove k) r h ih1 hr ih2 br (by omega) (by omega)
      have hH : h - 1 ≤ (Tree.rebalance (Tree.node nk ni (l.remove k) r h)).height ∧
          (Tree.rebalance (Tree.node nk ni (l.remove k) r h)).height ≤ h := by
        by_cases hx : (l.remove k).height - r.height ≤ 1 ∧
            r.height - (l.remove k).height ≤ 1
        · rw [hs5 hx.1 hx.2, height_node]
          omega
        · rcases not_and_or.mp hx with hx | hx <;> omega
      exact ⟨hs1, hs2, by rw [height_node]; exact hH.1, by rw [height_node]; exact hH.2⟩
    · rw [if_neg h1]
      by_cases h2 : nk < k
      · rw [if_pos h2]
        obtain ⟨ih1, ih2, ih3, ih4⟩ := ihr k hr br
        obtain ⟨hs1, hs2, hs3, hs4, hs5⟩ :=
          rebalance_spec nk ni l (r.remove k) h hl ih1 bl ih2 (by omega) (by omega)
        have hH : h - 1 ≤ (Tree.rebalance (Tree.node nk ni l (r.remove k) h)).height ∧
            (Tree.rebalance (Tree.node nk ni l (r.remove k) h)).height ≤ h := by
          by_cases hx : l.height - (r.remove k).height ≤ 1 ∧
              (r.remove k).height - l.height ≤ 1
          · rw [hs5 hx.1 hx.2, height_node]
            omega
          · rcases not_and_or.mp hx with hx | hx <;> omega
        exact ⟨hs1, hs2, by rw [height_node]; exact hH.1, by rw [height_node]; exact hH.2⟩
      · rw [if_neg h2]
        match l, hl, bl, hlnn, b1, b2, hh with
        | .leaf, _, _, _, b1, b2, hh =>
          match r, hr, br, hrnn, b1, b2, hh with
          | .leaf, _, _, _, _, _, hh =>
            refine ⟨trivial, trivial, ?_, ?_⟩ <;>
              simp only [height_leaf, height_node] at hh ⊢ <;> omega
          | .node rk ri rl rr rh, hr, br, hrnn, b1, b2, hh =>
            dsimp only
            rw [rebalance_eq_self hr br]
            refine ⟨hr, br, ?_, ?_⟩ <;>
              simp only [height_leaf, height_node] at hh hrnn ⊢ <;> omega
        | .node lk li ll lr lh, hl, bl, hlnn, b1, b2, hh =>
          match r, hr, br, hrnn, b1, b2, hh, ihr with
          | .leaf, _, _, _, b1, b2, hh, _ =>
            dsimp only
            rw [rebalance_eq_self hl bl]
            refine ⟨hl, bl, ?_, ?_⟩ <;>
              simp only [height_leaf, height_node] at hh hlnn ⊢ <;> omega
          | .node rk ri rl rr rh, hr, br, hrnn, b1, b2, hh, ihr =>
            dsimp only
            obtain ⟨ih1, ih2, ih3, ih4⟩ := ihr (Tree.min_node rk ri rl).1 hr br
            obtain ⟨hs1, hs2, hs3, hs4, hs5⟩ :=
              rebalance_spec (Tree.min_node rk ri rl).1 (Tree.min_node rk ri rl).2
                (Tree.node lk li ll lr lh)
                ((Tree.node rk ri rl rr rh).remove (Tree.min_node rk ri rl).1) h
                hl ih1 bl ih2
                (by simp only [height_node] at *; omega)
                (by simp only [height_node] at *; omega)
            refine ⟨hs1, hs2, ?_, ?_⟩
            · by_cases hx :
                  (Tree.node lk li ll lr lh).height -
                    ((Tree.node rk ri rl rr rh).remove (Tree.min_node rk ri rl).1).height ≤ 1 ∧
                  ((Tree.node rk ri rl rr rh).remove (Tree.min_node rk ri rl).1).height -
                    (Tree.node lk li ll lr lh).height ≤ 1
              · rw [hs5 hx.1 hx.2]
                simp only [height_node] at *
                omega
              · rcases not_and_or.mp hx with hx | hx <;>
                  (simp only [height_node] at *; omega)
            · by_cases hx :
                  (Tree.node lk li ll lr lh).height -
                    ((Tree.node rk ri rl rr rh).remove (Tree.min_node rk ri rl).1).height ≤ 1 ∧
                  ((Tree.node rk ri rl rr rh).remove (Tree.min_node rk ri rl).1).height -
                    (Tree.node lk li ll lr lh).height ≤ 1
              · rw [hs5 hx.1 hx.2]
                simp only [height_node] at *
                omega
              · rcases not_and_or.mp hx with hx | hx <;>
                  (simp only [height_node] at *; omega)

end HeightBalance

/-! Arbitrary sequences of public insert/remove operations. -/

section Sequences

variable {α β : Type}

/-- One public mutating call on an `avl_tree`. -/
inductive Op (α β : Type) where
  | ins (k : α) (i : β) : Op α β
  | del (k : α) : Op α β

/-- `insert(key, info)` / `remove(key)` on the tree's root. -/
def applyOp [LinearOrder α] (t : Tree α β) : Op α β → Tree α β
  | .ins k i => t.insert k i
  | .del k => t.remove k

theorem inv_leaf [LinearOrder α] : Inv (Tree.leaf : Tree α β) :=
  ⟨List.Pairwise.nil, trivial, trivial⟩

theorem inv_insert [LinearOrder α] {t : Tree α β} (h : Inv t) (k : α) (i : β) :
    Inv (t.insert k i) :=
  ⟨ordered_insert h.1 k i, (insert_spec k i h.2.1 h.2.2).1, (insert_spec k i h.2.1 h.2.2).2.1⟩

theorem inv_remove [LinearOrder α] {t : Tree α β} (h : Inv t) (k : α) :
    Inv (t.remove k) :=
  ⟨ordered_remove h.1 k, (remove_spec k h.2.1 h.2.2).1, (remove_spec k h.2.1 h.2.2).2.1⟩

theorem inv_applyOp [LinearOrder α] {t : Tree α β} (h : Inv t) (op : Op α β) :
    Inv (applyOp t op) := by
  cases op with
  | ins k i => exact inv_insert h k i
  | del k => exact inv_remove h k

theorem inv_foldl [LinearOrder α] (ops : List (Op α β)) :
    ∀ {t : Tree α β}, Inv t → Inv (ops.foldl applyOp t) := by
  induction ops with
  | nil => intro t h; exact h
  | cons op rest ih =>
    intro t h
    exact ih (inv_applyOp h op)

end Sequences

/-! The `count_words` word-frequency builder over `avl_tree<std::string, int>`.
Strings of the C++ are modelled as their character lists; the classic "C"
locale is assumed for `isspace`, `isalnum` and `tolower` (the stream is in
the default locale and no `setlocale` call occurs in the repository). -/

section CountWords

/-- Whitespace as recognised by `operator>>` on a default-constructed
stream: space, tab, newline, vertical tab, form feed, carriage return. -/
def cppIsSpace (c : Char) : Bool :=
  c = ' ' || c = '\t' || c = '\n' || c = Char.ofNat 11 || c = Char.ofNat 12 || c = '\r'

/-- `isalnum` in the "C" locale: ASCII digits and letters. -/
def cppIsAlnum (c : Char) : Bool :=
  ('0' ≤ c && c ≤ '9') || ('A' ≤ c && c ≤ 'Z') || ('a' ≤ c && c ≤ 'z')

/-- `tolower` in the "C" locale. -/
def cppToLower (c : Char) : Char :=
  if 'A' ≤ c ∧ c ≤ 'Z' then Char.ofNat (c.toNat + 32) else c

/-- The per-token cleaning loop of `count_words`: keep alphanumeric
characters, lower-cased, in order. -/
def clean_word (w : List Char) : List Char := (w.filter cppIsAlnum).map cppToLower

/-- The `while (is >> word)` loop: accumulate a run of non-whitespace
characters (`acc`, reversed) and emit it when whitespace or the end of
the stream is reached. -/
def tokens_aux : List Char → List Char → List (List Char)
  | acc, [] => if acc = [] then [] else [acc.reverse]
  | acc, c :: cs =>
    if cppIsSpace c then
      if acc = [] then tokens_aux [] cs else acc.reverse :: tokens_aux [] cs
    else tokens_aux (c :: acc) cs

/-- The whitespace-delimited tokens of the input stream, in order. -/
def tokens (s : List Char) : List (List Char) := tokens_aux [] s

/-- `word_count[cleaned_word]++`: mutable indexed access (inserting a
default-constructed `int`, i.e. `0`, if absent) followed by an increment
through the returned reference. -/
def bump (t : Tree (List Char) Int) (w : List Char) : Tree (List Char) Int :=
  ((t.bracket w).1).set_info w ((t.bracket w).2 + 1)

/-- The stream-consuming loop of `count_words`, parametrised by the
tree built so far. -/
def count_words_aux : Tree (List Char) Int → List (List Char) → Tree (List Char) Int
  | t, [] => t
  | t, w :: ws =>
    if clean_word w = [] then count_words_aux t ws
    else count_words_aux (bump t (clean_word w)) ws

/-- `count_words(std::istream&)`, on the whole input contents. -/
def count_words (s : List Char) : Tree (List Char) Int :=
  count_words_aux Tree.leaf (tokens s)

theorem bracket_some [LinearOrder α] [Inhabited β] {t : Tree α β} {k : α} {v : β}
    (h : t.find k = some v) : t.bracket k = (t, v) := by
  unfold Tree.bracket
  rw [h]

theorem bracket_none [LinearOrder α] [Inhabited β] {t : Tree α β} {k : α}
    (h : t.find k = none) :
    t.bracket k = (t.insert k default, ((t.insert k default).find k).getD default) := by
  unfold Tree.bracket
  rw [h]

theorem find_bump {t : Tree (List Char) Int} (ho : Ordered t) (w : List Char) :
    Ordered (bump t w) ∧
    (bump t w).find w = some ((t.find w).getD 0 + 1) ∧
    ∀ w' : List Char, w' ≠ w → (bump t w).find w' = t.find w' := by
  cases hf : t.find w with
  | some v =>
    rw [bump, bracket_some hf]
    refine ⟨ordered_set_info ho w (v + 1), ?_, ?_⟩
    · rw [find_set_info_self (v + 1) hf]
      rfl
    · intro w' hw'
      exact find_set_info_ne _ hw'
  | none =>
    have hfin : (t.insert w default).find w = some default := by
      rw [find_insert ho w w default, if_pos rfl]
    rw [bump, bracket_none hf]
    refine ⟨ordered_set_info (ordered_insert ho w default) w _, ?_, ?_⟩
    · rw [find_set_info_self _ hfin, hfin]
      rfl
    · intro w' hw'
      rw [find_set_info_ne _ hw', find_insert ho w w' default, if_neg hw']

theorem count_words_aux_spec (ws : List (List Char)) :
    ∀ (t : Tree (List Char) Int), Ordered t → ∀ w : List Char,
      (count_words_aux t ws).find w =
        (if ((ws.map clean_word).filter (fun x => x ≠ [])).count w = 0 then t.find w
         else some ((t.find w).getD 0 +
           (((ws.map clean_word).filter (fun x => x ≠ [])).count w : Int))) := by
  induction ws with
  | nil =>
    intro t ho w
    simp [count_words_aux]
  | cons w0 ws ih =>
    intro t ho w
    rw [count_words_aux]
    by_cases hcw : clean_word w0 = []
    · rw [if_pos hcw, ih t ho w]
      simp [hcw]
    · rw [if_neg hcw]
      obtain ⟨hbo, hbw, hbne⟩ := find_bump ho (clean_word w0)
      rw [ih (bump t (clean_word w0)) hbo w]
      have hstep : (((w0 :: ws).map clean_word).filter (fun x => x ≠ [])) =
          clean_word w0 :: ((ws.map clean_word).filter (fun x => x ≠ [])) := by
        simp [List.filter_cons, hcw]
      rw [hstep]
      by_cases hw : w = clean_word w0
      · subst hw
        rw [hbw]
        have hcnt : ((clean_word w0) :: ((ws.map clean_word).filter (fun x => x ≠ []))).count
            (clean_word w0) =
            ((ws.map clean_word).filter (fun x => x ≠ [])).count (clean_word w0) + 1 := by
          simp [List.count_cons]
        rw [hcnt]
        rcases Nat.eq_zero_or_pos (((ws.map clean_word).filter (fun x => x ≠ [])).count
            (clean_word w0)) with hc | hc
        · rw [hc, if_pos rfl, if_neg (by omega)]
          norm_num
        · rw [if_neg (by omega), if_neg (by omega)]
          simp only [Option.getD_some]
          congr 1
          push_cast
          ring
      · rw [hbne w hw]
        have hcnt : ((clean_word w0) :: ((ws.map clean_word).filter (fun x => x ≠ []))).count w =
            ((ws.map clean_word).filter (fun x => x ≠ [])).count w := by
          simp [List.count_cons, Ne.symm hw]
        rw [hcnt]

end CountWords

/-! The `maxinfo_selector` helper.  `std::sort` guarantees only that the
result is some permutation of the input that is sorted with respect to
the comparator (`a.second > b.second`); the relative order of entries
with equal `info` is unspecified.  The function is therefore modelled as
a relation between the tree, the count and the possible outputs. -/

section Maxinfo

variable {α β : Type}

/-- Sortedness with respect to the comparator `a.second > b.second`:
no later entry has a strictly larger info. -/
def SortedByInfoDesc [LinearOrder β] (v : List (α × β)) : Prop :=
  v.Pairwise (fun a b => b.2 ≤ a.2)

/-- `maxinfo_selector(tree, cnt)` may return `out` iff some conforming
run of `std::sort` (a comparator-sorted permutation `v` of the in-order
vector) followed by `if (cnt < v.size()) v.resize(cnt);` yields `out`. -/
def maxinfo_selector_result [LinearOrder α] [LinearOrder β]
    (t : Tree α β) (cnt : Nat) (out : List (α × β)) : Prop :=
  ∃ v, t.to_vector.Perm v ∧ SortedByInfoDesc v ∧
    out = if cnt < v.length then v.take cnt else v

end Maxinfo

/-! The claims. -/

section Claims

/-- Claim C1: for every sequence of insert and remove operations applied to
an initially empty `avl_tree`, the resulting tree satisfies the BST and AVL
invariants: the in-order traversal (`to_vector`) yields strictly ascending
keys, every node's cached height equals `1 + max(height(left), height(right))`,
and every node's children's heights differ by at most 1. -/
theorem C1_avl_invariants {α β : Type} [LinearOrder α] (ops : List (Op α β)) :
    List.Chain' (· < ·) (keys (ops.foldl applyOp Tree.leaf).to_vector) ∧
    HtOk (ops.foldl applyOp Tree.leaf) ∧ Bal (ops.foldl applyOp Tree.leaf) := by
  obtain ⟨ho, hh, hb⟩ := inv_foldl ops inv_leaf
  exact ⟨List.chain'_iff_pairwise.mpr ho, hh, hb⟩

/-- Claim C2 (divergence): on the tie-breaking tree
`{a:10, b:30, c:30, d:30}` of the repository's own
`test_maxinfo_selector_again`, the contract of `std::sort` (any
comparator-sorted permutation; `std::sort` is not stable) admits the
output `[(c,30), (b,30)]` for `maxinfo_selector(tree, 2)`, which differs
from the in-order tie-break `[(b,30), (c,30)]` that the claim (and the
test) require. -/
theorem C2_sort_tie_divergence :
    maxinfo_selector_result
      ((((Tree.leaf.insert "a".data (10:Int)).insert "b".data 30).insert
        "c".data 30).insert "d".data 30) 2
      [("c".data, 30), ("b".data, 30)] ∧
    [("c".data, (30:Int)), ("b".data, 30)] ≠ [("b".data, 30), ("c".data, 30)] := by
  constructor
  · refine ⟨[("c".data, 30), ("b".data, 30), ("d".data, 30), ("a".data, 10)],
      ?_, ?_, ?_⟩
    · decide
    · show List.Pairwise _ _
      decide
    · decide
  · decide

/-- Claim C3: inserting an already-present key `k` again, with any info
value, leaves `size()` unchanged, creates no duplicate entry, and
afterwards the info associated with `k` is the newly inserted value. -/
theorem C3_insert_existing_key {α β : Type} [LinearOrder α] (t : Tree α β)
    (k : α) (i i0 : β) (hinv : Inv t) (hmem : t.find k = some i0) :
    (t.insert k i).size = t.size ∧
    (t.insert k i).find k = some i ∧
    (keys (t.insert k i).to_vector).Nodup := by
  have ho : Ordered t := hinv.1
  have hmemk : k ∈ keys t.to_vector := by
    rw [find_eq_keyLookup ho k] at hmem
    exact keyLookup_isSome_iff_mem.mp (by rw [hmem]; rfl)
  refine ⟨?_, ?_, ?_⟩
  · rw [Tree.size, Tree.size, to_vector_insert ho, length_kvInsert_of_mem i ho hmemk]
  · rw [find_insert ho k k i, if_pos rfl]
  · exact ((ordered_insert ho k i).imp fun hab => ne_of_lt hab)

/-- Witness for C3: re-inserting key 1 into the tree `{1 : 10, 2 : 20}`. -/
theorem C3_insert_existing_key_witness :
    ((((Tree.leaf.insert (1:Int) (10:Int)).insert 2 20).insert 1 99).size =
      ((Tree.leaf.insert (1:Int) (10:Int)).insert 2 20).size) ∧
    ((((Tree.leaf.insert (1:Int) (10:Int)).insert 2 20).insert 1 99).find 1 =
      some 99) ∧
    (keys ((((Tree.leaf.insert (1:Int) (10:Int)).insert 2 20).insert 1 99).to_vector)).Nodup :=
  C3_insert_existing_key ((Tree.leaf.insert (1:Int) (10:Int)).insert 2 20) 1 99 10
    (by decide) (by decide)

/-- Claim C4: after `remove(k)` on a tree containing `k`, `search(k, out)`
returns false, and any other key previously present is still found with
its previous info value. -/
theorem C4_remove_then_search {α β : Type} [LinearOrder α] (t : Tree α β)
    (k k' : α) (i0 i' : β) (out : β)
    (hinv : Inv t) (hmem : t.find k = some i0)
    (hne : k' ≠ k) (hmem' : t.find k' = some i') :
    ((t.remove k).search k out).1 = false ∧
    (t.remove k).search k' out = (true, i') := by
  have ho : Ordered t := hinv.1
  constructor
  · rw [Tree.search, find_remove ho k k, if_pos rfl]
  · rw [Tree.search, find_remove ho k k', if_neg hne, hmem']

/-- Witness for C4: removing key 1 from `{1 : 10, 2 : 20}` and searching
for 1 (not found) and 2 (still 20). -/
theorem C4_remove_then_search_witness :
    ((((Tree.leaf.insert (1:Int) (10:Int)).insert 2 20).remove 1).search 1 0).1 = false ∧
    (((Tree.leaf.insert (1:Int) (10:Int)).insert 2 20).remove 1).search 2 0 = (true, 20) :=
  C4_remove_then_search ((Tree.leaf.insert (1:Int) (10:Int)).insert 2 20) 1 2 10 20 0
    (by decide) (by decide) (by decide) (by decide)

/-- Claim C5: removing an absent key (also from the empty tree) is a
no-op: the tree — its structure, hence also its `to_vector` sequence —
is unchanged and no error is signalled. -/
theorem C5_remove_absent_noop {α β : Type} [LinearOrder α] (t : Tree α β)
    (k : α) (hinv : Inv t) (habs : t.find k = none) :
    t.remove k = t ∧ (t.remove k).to_vector = t.to_vector := by
  obtain ⟨ho, hh, hb⟩ := hinv
  have main : ∀ u : Tree α β, Ordered u → HtOk u → Bal u → u.find k = none →
      u.remove k = u := by
    intro u
    induction u with
    | leaf => intro _ _ _ _; rfl
    | node nk ni l r h ihl ihr =>
      intro ho hh hb habs
      rcases ordered_node_iff.mp ho with ⟨hol, hor, _, _⟩
      obtain ⟨hhh, hhl, hhr⟩ := htok_node.mp hh
      obtain ⟨⟨b1, b2⟩, bbl, bbr⟩ := bal_node.mp hb
      rw [Tree.find] at habs
      by_cases h1 : k = nk
      · rw [if_pos h1] at habs
        exact absurd habs (by simp)
      · rw [if_neg h1] at habs
        rw [remove_node]
        by_cases h2 : k < nk
        · rw [if_pos h2] at habs
          rw [if_pos h2, ihl hol hhl bbl habs]
          exact rebalance_eq_self hh hb
        · rw [if_neg h2] at habs
          have h3 : nk < k := lt_of_le_of_ne (not_lt.mp h2) (Ne.symm h1)
          rw [if_neg h2, if_pos h3, ihr hor hhr bbr habs]
          exact rebalance_eq_self hh hb
  have heq := main t ho hh hb habs
  exact ⟨heq, by rw [heq]⟩

/-- Witness for C5: removing the absent key 99 from `{1 : 10, 2 : 20}`. -/
theorem C5_remove_absent_noop_witness :
    (((Tree.leaf.insert (1:Int) (10:Int)).insert 2 20).remove 99 =
      ((Tree.leaf.insert (1:Int) (10:Int)).insert 2 20)) ∧
    ((((Tree.leaf.insert (1:Int) (10:Int)).insert 2 20).remove 99).to_vector =
      ((Tree.leaf.insert (1:Int) (10:Int)).insert 2 20).to_vector) :=
  C5_remove_absent_noop ((Tree.leaf.insert (1:Int) (10:Int)).insert 2 20) 99
    (by decide) (by decide)

/-- Claim C6: inserting 3, 2, 1 yields in-order `[1, 2, 3]` with root key 2
(single right rotation); inserting 30, 10, 20 yields in-order `[10, 20, 30]`
with root key 20 (left-right double rotation); inserting 10, 30, 20 yields
root key 20 (right-left double rotation). -/
theorem C6_rotation_cases :
    (keys (((Tree.leaf.insert 3 3).insert 2 2).insert 1 (1:Int)).to_vector = [1, 2, 3] ∧
      (((Tree.leaf.insert 3 3).insert 2 2).insert 1 (1:Int)).rootKey = some 2) ∧
    (keys (((Tree.leaf.insert 30 1).insert 10 1).insert 20 (1:Int)).to_vector =
        [10, 20, 30] ∧
      (((Tree.leaf.insert 30 1).insert 10 1).insert 20 (1:Int)).rootKey = some 20) ∧
    (((Tree.leaf.insert 10 1).insert 30 1).insert 20 (1:Int)).rootKey = some 20 := by
  decide

/-- Claim C7: `count_words` tokenises the stream on whitespace, strips
non-alphanumeric characters, lower-cases, drops empty results, and maps
each remaining cleaned token to its occurrence count; concretely,
`"Hello, world! World... hello!"` yields exactly the entries
`hello -> 2` and `world -> 2`, and punctuation-only input yields the
empty tree. -/
theorem C7_count_words (s w : List Char) :
    ((count_words s).find w =
      (if (((tokens s).map clean_word).filter (fun x => x ≠ [])).count w = 0 then none
       else some ((((tokens s).map clean_word).filter (fun x => x ≠ [])).count w : Int))) ∧
    (count_words "Hello, world! World... hello!".data).to_vector =
      [("hello".data, 2), ("world".data, 2)] ∧
    (count_words "!!! ??? ... ,,, ---".data).to_vector = [] := by
  refine ⟨?_, by decide, by decide⟩
  rw [count_words, count_words_aux_spec (tokens s) Tree.leaf List.Pairwise.nil w]
  by_cases hc : (((tokens s).map clean_word).filter (fun x => x ≠ [])).count w = 0
  · rw [if_pos hc, if_pos hc]
    rfl
  · rw [if_neg hc, if_neg hc]
    show some (Option.getD none 0 + _) = _
    simp

/-- Claim C8: the mutable `operator[]` returns a reference to the info of
`k` (so `k` is present afterwards and the reference reads back as the
returned value); if `k` was absent a default-constructed info is inserted
first (the operation is total — it never signals KeyNotFound); if `k` was
present the tree is untouched and the current info is returned. -/
theorem C8_bracket_mutable {α β : Type} [LinearOrder α] [Inhabited β]
    (t : Tree α β) (k : α) (hinv : Inv t) :
    ((t.bracket k).1).find k = some ((t.bracket k).2) ∧
    (t.find k = none → (t.bracket k).2 = default ∧
      ((t.bracket k).1).to_vector = kvInsert k default t.to_vector) ∧
    (∀ v, t.find k = some v → (t.bracket k).1 = t ∧ (t.bracket k).2 = v) := by
  have ho : Ordered t := hinv.1
  cases hf : t.find k with
  | some v =>
    rw [bracket_some hf]
    exact ⟨hf, fun hn => absurd hn (by simp), fun v' hv' => ⟨rfl, Option.some_inj.mp hv'⟩⟩
  | none =>
    have hfin : (t.insert k default).find k = some default := by
      rw [find_insert ho k k default, if_pos rfl]
    rw [bracket_none hf]
    refine ⟨?_, fun _ => ⟨by rw [hfin]; rfl, to_vector_insert ho k default⟩,
      fun v' hv' => absurd hv' (by simp)⟩
    rw [hfin]
    rfl

/-- Witness for C8: indexed access at the absent key 5 and at the present
key 1 of `{1 : 10, 2 : 20}`. -/
theorem C8_bracket_mutable_witness :
    ((((Tree.leaf.insert (1:Int) (10:Int)).insert 2 20).bracket 5).1).find 5 =
      some ((((Tree.leaf.insert (1:Int) (10:Int)).insert 2 20).bracket 5).2) ∧
    (((Tree.leaf.insert (1:Int) (10:Int)).insert 2 20).find 5 = none →
      (((Tree.leaf.insert (1:Int) (10:Int)).insert 2 20).bracket 5).2 = default ∧
      ((((Tree.leaf.insert (1:Int) (10:Int)).insert 2 20).bracket 5).1).to_vector =
        kvInsert 5 default ((Tree.leaf.insert (1:Int) (10:Int)).insert 2 20).to_vector) ∧
    (∀ v, ((Tree.leaf.insert (1:Int) (10:Int)).insert 2 20).find 5 = some v →
      (((Tree.leaf.insert (1:Int) (10:Int)).insert 2 20).bracket 5).1 =
        ((Tree.leaf.insert (1:Int) (10:Int)).insert 2 20) ∧
      (((Tree.leaf.insert (1:Int) (10:Int)).insert 2 20).bracket 5).2 = v) :=
  C8_bracket_mutable ((Tree.leaf.insert (1:Int) (10:Int)).insert 2 20) 5 (by decide)

/-- Claim C9: the read-only `operator[]` on an absent key signals no error
and returns the shared static default, a default-constructed info value
(the method is `const`, so the tree is unchanged by the call — in this
model it is a pure function of the tree). -/
theorem C9_bracketConst_missing {α β : Type} [LinearOrder α] [Inhabited β]
    (t : Tree α β) (k : α) (h : t.find k = none) :
    t.bracketConst k = (default : β) := by
  rw [Tree.bracketConst, h]
  rfl

/-- Witness for C9: read-only access at the absent key 99 of `{1 : 10}`. -/
theorem C9_bracketConst_missing_witness :
    (Tree.leaf.insert (1:Int) (10:Int)).bracketConst 99 = default :=
  C9_bracketConst_missing (Tree.leaf.insert (1:Int) (10:Int)) 99 (by decide)

/-- Claim C10: `search` on an absent key returns false and leaves the
caller's output parameter unchanged (the out parameter is written only on
success); `search` is `const`, so the tree itself is unchanged. -/
theorem C10_search_missing {α β : Type} [LinearOrder α] (t : Tree α β)
    (k : α) (out : β) (h : t.find k = none) :
    t.search k out = (false, out) := by
  rw [Tree.search, h]

/-- Witness for C10: searching for the absent key 99 in `{1 : 10}` with
output parameter initially 77. -/
theorem C10_search_missing_witness :
    (Tree.leaf.insert (1:Int) (10:Int)).search 99 77 = (false, 77) :=
  C10_search_missing (Tree.leaf.insert (1:Int) (10:Int)) 99 77 (by decide)

end Claims

end AvlCpp
